import Mathlib

/-!
Verification of the problem-construction and sensitivity-assembly layer of
the `casadi-mpc` repository, centred on
`src/casadi_nlp/wrappers/differentiable_nlp.py` (the `DifferentiableNlp`
wrapper: bound reduction `h_lbx`/`h_ubx`, `lagrangian`,
`primal_dual_variables`, and the cache-invalidation wiring of
`variable`/`constraint`/`minimize`).

Symbolic casadi expressions (`cs.SX`/`cs.MX`) are embedded as a small
expression tree `Sym`; numpy bound arrays, whose entries may be `±inf`,
are embedded as lists of extended rationals `Bnd`.  Numeric substitution
(`subsevalf` / `cs.evalf`) is embedded as `Sym.eval` into `Bnd`, with
IEEE-style behaviour on the `±inf − finite` cases that actually arise.
-/

namespace CsNlp

/-- An extended rational: the value of one entry of a numpy bound array
(`lbx` / `ubx`), which is either `-inf`, a finite number, or `+inf`.
Rationals stand in for the floats of the source. -/
inductive Bnd where
  | ninf : Bnd
  | fin : ℚ → Bnd
  | pinf : Bnd
deriving DecidableEq, Repr

/-- `true` exactly on finite values. -/
def Bnd.isFin : Bnd → Bool
  | .fin _ => true
  | _ => false

/-- IEEE-style subtraction on extended values.  The `∞ − ∞` cases (NaN in
floats) never arise in this development because the subtrahend produced by
substitution is always finite; they are mapped to `fin 0`. -/
def Bnd.sub : Bnd → Bnd → Bnd
  | .fin a, .fin b => .fin (a - b)
  | .ninf, .fin _ => .ninf
  | .pinf, .fin _ => .pinf
  | .fin _, .ninf => .pinf
  | .fin _, .pinf => .ninf
  | .ninf, .pinf => .ninf
  | .pinf, .ninf => .pinf
  | .ninf, .ninf => .fin 0
  | .pinf, .pinf => .fin 0

/-- IEEE-style addition on extended values; the indeterminate
`-∞ + ∞` cases are mapped to `fin 0` and never arise under the finiteness
hypotheses used below. -/
def Bnd.add : Bnd → Bnd → Bnd
  | .fin a, .fin b => .fin (a + b)
  | .ninf, .fin _ => .ninf
  | .fin _, .ninf => .ninf
  | .pinf, .fin _ => .pinf
  | .fin _, .pinf => .pinf
  | .ninf, .ninf => .ninf
  | .pinf, .pinf => .pinf
  | .ninf, .pinf => .fin 0
  | .pinf, .ninf => .fin 0

/-- Multiplication on extended values; only the finite case is ever used
(`0 * ∞` is NaN in floats), the rest is mapped to `fin 0` and guarded by
finiteness hypotheses in every theorem that touches it. -/
def Bnd.mul : Bnd → Bnd → Bnd
  | .fin a, .fin b => .fin (a * b)
  | _, _ => .fin 0

/-- The finite part of an extended value (junk `0` on `±inf`). -/
def Bnd.toQ : Bnd → ℚ
  | .fin a => a
  | _ => 0

/-- A symbolic casadi expression over the atoms of one NLP instance:
decision-variable components `xvar i` (entries of `nlp._x`), multiplier
components `lamG i`, `lamH i`, `lamLbx i`, `lamUbx i` (entries of
`nlp._lam_g`, `_lam_h`, `_lam_lbx`, `_lam_ubx`), parameter components
`par i` (entries of `nlp._p`), numeric literals (possibly `±inf`), and
the arithmetic the wrapper builds. -/
inductive Sym where
  | xvar : ℕ → Sym
  | lamG : ℕ → Sym
  | lamH : ℕ → Sym
  | lamLbx : ℕ → Sym
  | lamUbx : ℕ → Sym
  | par : ℕ → Sym
  | lit : Bnd → Sym
  | add : Sym → Sym → Sym
  | sub : Sym → Sym → Sym
  | mul : Sym → Sym → Sym
deriving DecidableEq, Repr

/-- A substitution assigning a finite numeric value to every atom, as
passed to `subsevalf` when evaluating an expression numerically. -/
structure Asn where
  x : ℕ → ℚ
  lamG : ℕ → ℚ
  lamH : ℕ → ℚ
  lamLbx : ℕ → ℚ
  lamUbx : ℕ → ℚ
  p : ℕ → ℚ

/-- Numeric evaluation of an expression under a substitution (the
embedding of `subsevalf`/`cs.evalf`). -/
def Sym.eval (σ : Asn) : Sym → Bnd
  | .xvar i => .fin (σ.x i)
  | .lamG i => .fin (σ.lamG i)
  | .lamH i => .fin (σ.lamH i)
  | .lamLbx i => .fin (σ.lamLbx i)
  | .lamUbx i => .fin (σ.lamUbx i)
  | .par i => .fin (σ.p i)
  | .lit b => b
  | .add a b => Bnd.add (a.eval σ) (b.eval σ)
  | .sub a b => Bnd.sub (a.eval σ) (b.eval σ)
  | .mul a b => Bnd.mul (a.eval σ) (b.eval σ)

/-- Purely rational evaluation, mapping infinite literals to junk `0`;
it agrees with `Sym.eval` on expressions whose literals are all finite
(`Sym.eval_eq_fin_evalQ`). -/
def Sym.evalQ (σ : Asn) : Sym → ℚ
  | .xvar i => σ.x i
  | .lamG i => σ.lamG i
  | .lamH i => σ.lamH i
  | .lamLbx i => σ.lamLbx i
  | .lamUbx i => σ.lamUbx i
  | .par i => σ.p i
  | .lit b => b.toQ
  | .add a b => a.evalQ σ + b.evalQ σ
  | .sub a b => a.evalQ σ - b.evalQ σ
  | .mul a b => a.evalQ σ * b.evalQ σ

/-- `true` when every literal in the expression is finite. -/
def Sym.allFinite : Sym → Bool
  | .lit b => b.isFin
  | .add a b => a.allFinite && b.allFinite
  | .sub a b => a.allFinite && b.allFinite
  | .mul a b => a.allFinite && b.allFinite
  | _ => true

/-- The flat data of one NLP instance as seen by `DifferentiableNlp`
through its `self.nlp` reference: the stacked bound vectors `_lbx`/`_ubx`,
the variable counter `nx`, the scalar objective `_f`, and the stacked
equality/inequality constraint vectors `_g`/`_h`.  The atom vectors
`_x`, `_lam_g`, `_lam_h`, `_lam_lbx`, `_lam_ubx`, `_p` are the index-wise
families `Sym.xvar`, `Sym.lamG`, … (see `xVec` and friends). -/
structure NlpData where
  nx : ℕ
  lbx : List Bnd
  ubx : List Bnd
  f : Sym
  g : List Sym
  h : List Sym
deriving DecidableEq, Repr

/-- The stacked decision-variable vector `nlp._x`. -/
def NlpData.xVec (nlp : NlpData) : List Sym :=
  (List.range nlp.nx).map Sym.xvar

/-- The stacked equality-constraint multiplier vector `nlp._lam_g`. -/
def NlpData.lamGVec (nlp : NlpData) : List Sym :=
  (List.range nlp.g.length).map Sym.lamG

/-- The stacked inequality-constraint multiplier vector `nlp._lam_h`. -/
def NlpData.lamHVec (nlp : NlpData) : List Sym :=
  (List.range nlp.h.length).map Sym.lamH

/-- Embedding of the local `idx` of property `h_lbx`
(`differentiable_nlp.py` lines 55-58): in simplify mode,
`np.where(self.nlp._lbx != -np.inf)[0]`; otherwise
`np.arange(self.nlp.nx)`. -/
def lbxIdx (nlp : NlpData) (simplify : Bool) : List ℕ :=
  if simplify then
    (List.range nlp.lbx.length).filter
      (fun i => decide (nlp.lbx.getD i Bnd.ninf ≠ Bnd.ninf))
  else
    List.range nlp.nx

/-- Embedding of the local `idx` of property `h_ubx`
(`differentiable_nlp.py` lines 67-70): in simplify mode,
`np.where(self.nlp._ubx != np.inf)[0]`; otherwise
`np.arange(self.nlp.nx)`. -/
def ubxIdx (nlp : NlpData) (simplify : Bool) : List ℕ :=
  if simplify then
    (List.range nlp.ubx.length).filter
      (fun i => decide (nlp.ubx.getD i Bnd.pinf ≠ Bnd.pinf))
  else
    List.range nlp.nx

/-- Embedding of property `h_lbx` (`differentiable_nlp.py` lines 50-60):
`h = self.nlp._lbx[idx, None] - self.nlp._x[idx]` paired with
`self.nlp._lam_lbx[idx]`. -/
def h_lbx (nlp : NlpData) (simplify : Bool) : List Sym × List Sym :=
  ((lbxIdx nlp simplify).map
      (fun i => Sym.sub (Sym.lit (nlp.lbx.getD i (Bnd.fin 0))) (Sym.xvar i)),
   (lbxIdx nlp simplify).map Sym.lamLbx)

/-- Embedding of property `h_ubx` (`differentiable_nlp.py` lines 62-72):
`h = self.nlp._x[idx] - self.nlp._ubx[idx, None]` paired with
`self.nlp._lam_ubx[idx]`. -/
def h_ubx (nlp : NlpData) (simplify : Bool) : List Sym × List Sym :=
  ((ubxIdx nlp simplify).map
      (fun i => Sym.sub (Sym.xvar i) (Sym.lit (nlp.ubx.getD i (Bnd.fin 0)))),
   (ubxIdx nlp simplify).map Sym.lamUbx)

/-- A Python exception, as raised by the modelled code paths. -/
inductive PyErr where
  | nameError : String → PyErr
  | runtimeError : PyErr
  | valueError : PyErr
deriving DecidableEq, Repr

/-- Embedding of `cs.dot(a, b)`: the scalar product of two stacked
vectors, built as a left fold of sums of element products. -/
def dot (a b : List Sym) : Sym :=
  (List.zipWith Sym.mul a b).foldl Sym.add (Sym.lit (Bnd.fin 0))

/-- Embedding of property `lagrangian` (`differentiable_nlp.py` lines
74-83): `f + dot(lam_g, g) + dot(lam_h, h) + dot(lam_h_lbx, h_lbx) +
dot(lam_h_ubx, h_ubx)`.  Note that the source body never consults
`include_barrier_term`. -/
def lagrangian (nlp : NlpData) (simplify : Bool) : Sym :=
  let hl := h_lbx nlp simplify
  let hu := h_ubx nlp simplify
  Sym.add
    (Sym.add
      (Sym.add
        (Sym.add nlp.f (dot (nlp.lamGVec) nlp.g))
        (dot (nlp.lamHVec) nlp.h))
      (dot hl.2 hl.1))
    (dot hu.2 hu.1)

/-- The module-level bindings of `differentiable_nlp.py` that hold a list
of strings.  The module defines exactly one such global,
`PRIMAL_DUAL_ORDER = ['x', 'g', 'h', 'h_lbx', 'h_ubx']` (line 8); Python
name resolution for a free name inside a method consults this mapping
(and the builtins, which hold no such name either). -/
def moduleLookup (globalName : String) : Option (List String) :=
  if globalName = "PRIMAL_DUAL_ORDER" then
    some ["x", "g", "h", "h_lbx", "h_ubx"]
  else
    none

/-- One iteration of the loop body of `primal_dual_variables`
(`differentiable_nlp.py` lines 89-104): the block appended to `args` for
a given order tag, or the `RuntimeError` of the final `else` branch. -/
def pdBlock (nlp : NlpData) (simplify : Bool) : String → Except PyErr (List Sym)
  | "x" => .ok nlp.xVec
  | "g" => .ok nlp.lamGVec
  | "h" => .ok nlp.lamHVec
  | "h_lbx" => .ok (h_lbx nlp simplify).2
  | "h_ubx" => .ok (h_ubx nlp simplify).2
  | _ => .error .runtimeError

/-- Embedding of property `primal_dual_variables` (`differentiable_nlp.py`
lines 85-105): the loop iterates over the free name `_PRIMAL_DUAL_ORDER`,
which is resolved through the module globals (`moduleLookup`); if the
lookup fails, Python raises `NameError` before any block is assembled.
On success the collected blocks would be vertically concatenated
(`cs.vertcat(*args)`). -/
def primal_dual_variables (nlp : NlpData) (simplify : Bool) :
    Except PyErr (List Sym) :=
  match moduleLookup "_PRIMAL_DUAL_ORDER" with
  | none => .error (.nameError "_PRIMAL_DUAL_ORDER")
  | some order => do
      let blocks ← order.mapM (pdBlock nlp simplify)
      pure blocks.flatten

/-- Modelled from the spec: one variable declaration of the Entity
Registry (the base `Nlp` class is not under `src/`; only its tests are).
Per §3, a variable carries a unique name and elementwise lower/upper
bound arrays already broadcast to the variable's flattened shape, so the
element count is `lb.length`. -/
structure VarDecl where
  name : String
  lb : List Bnd
  ub : List Bnd
deriving DecidableEq, Repr

/-- Modelled from the spec: one parameter declaration (name plus flattened
element count), §3/§4.1. -/
structure ParDecl where
  name : String
  size : ℕ
deriving DecidableEq, Repr

/-- Modelled from the spec: one constraint declaration, §3 — a unique
name, the constraint group (`eq = true` for the equality group `g`,
`false` for the inequality group `h`, determined by the operator), and
the flattened canonical expression vector. -/
structure ConDecl where
  name : String
  eq : Bool
  expr : List Sym
deriving DecidableEq, Repr

/-- Modelled from the spec: the Entity Registry state of the base `Nlp`
class (§4.1), which is not under `src/` — append-only, name-keyed stores
of declared variables, parameters and constraints in declaration order,
plus the current objective. -/
structure Nlp where
  vars : List VarDecl
  pars : List ParDecl
  cons : List ConDecl
  f : Sym
deriving DecidableEq, Repr

/-- Total scalar element count of the stacked variable vector. -/
def Nlp.nx (nlp : Nlp) : ℕ :=
  (nlp.vars.map (fun d => d.lb.length)).sum

/-- Total scalar element count of the stacked parameter vector. -/
def Nlp.npar (nlp : Nlp) : ℕ :=
  (nlp.pars.map (fun d => d.size)).sum

/-- Total scalar element count of the stacked constraint vectors
(`g` and `h` together). -/
def Nlp.ncon (nlp : Nlp) : ℕ :=
  (nlp.cons.map (fun d => d.expr.length)).sum

/-- The flat data view the wrapper reads through `self.nlp`: stacked
bounds in declaration order, the objective, and the stacked
equality/inequality constraint expressions. -/
def Nlp.data (nlp : Nlp) : NlpData :=
  { nx := nlp.nx,
    lbx := nlp.vars.flatMap (fun d => d.lb),
    ubx := nlp.vars.flatMap (fun d => d.ub),
    f := nlp.f,
    g := (nlp.cons.filter (fun c => c.eq)).flatMap (fun c => c.expr),
    h := (nlp.cons.filter (fun c => !c.eq)).flatMap (fun c => c.expr) }

/-- Modelled from the spec: `Nlp.variable` (§4.1, §6; the base class is
not under `src/`).  Fails with a naming-conflict `ValueError` and
registers nothing if the name exists; otherwise appends the declaration
and returns the new variable block and its two bound-multiplier blocks,
offset past the already-stacked components. -/
def Nlp.variable (nlp : Nlp) (d : VarDecl) :
    Except PyErr (List Sym × List Sym × List Sym) × Nlp :=
  if nlp.vars.any (fun v => v.name = d.name) then
    (.error .valueError, nlp)
  else
    let off := nlp.nx
    let n := d.lb.length
    (.ok ((List.range n).map (fun k => Sym.xvar (off + k)),
          (List.range n).map (fun k => Sym.lamLbx (off + k)),
          (List.range n).map (fun k => Sym.lamUbx (off + k))),
     { nlp with vars := nlp.vars ++ [d] })

/-- Modelled from the spec: `Nlp.parameter` (§4.1; the base class is not
under `src/`).  Fails with a naming-conflict `ValueError` and registers
nothing if the name exists; otherwise appends the declaration and returns
the new parameter block. -/
def Nlp.parameter (nlp : Nlp) (d : ParDecl) :
    Except PyErr (List Sym) × Nlp :=
  if nlp.pars.any (fun p => p.name = d.name) then
    (.error .valueError, nlp)
  else
    let off := nlp.npar
    (.ok ((List.range d.size).map (fun k => Sym.par (off + k))),
     { nlp with pars := nlp.pars ++ [d] })

/-- Modelled from the spec: `Nlp.constraint` (§4.1, §6; the base class is
not under `src/`).  Fails with a naming-conflict `ValueError` and
registers nothing if the name exists; otherwise appends the declaration
and returns the canonical expression with its multiplier block, offset
past the already-stacked components of its group. -/
def Nlp.constraint (nlp : Nlp) (d : ConDecl) :
    Except PyErr (List Sym × List Sym) × Nlp :=
  if nlp.cons.any (fun c => c.name = d.name) then
    (.error .valueError, nlp)
  else
    let off := if d.eq then nlp.data.g.length else nlp.data.h.length
    (.ok (d.expr,
          (List.range d.expr.length).map
            (fun k => if d.eq then Sym.lamG (off + k) else Sym.lamH (off + k))),
     { nlp with cons := nlp.cons ++ [d] })

/-- Modelled from the spec: `Nlp.minimize` (§6; the base class is not
under `src/`) — sets the scalar objective. -/
def Nlp.minimize (nlp : Nlp) (f : Sym) : Except PyErr Unit × Nlp :=
  (.ok (), { nlp with f := f })

/-- The state of one `DifferentiableNlp` wrapper instance: the wrapped
NLP, the two flags stored by `__init__` (`differentiable_nlp.py` lines
46-48, with the source's spelling of the simplify flag), and one cache
slot per `cached_property`.  The cache slots themselves are modelled from
the spec (§3 Lifecycle, §4.3, §9): `casadi_nlp.util.cached_property` is
not under `src/`; a slot holds the memoized value or `none` when
invalidated, and starts out `none`. -/
structure DifferentiableNlp where
  nlp : Nlp
  remove_reduntant_x_bounds : Bool
  include_barrier_term : Bool
  cache_h_lbx : Option (List Sym × List Sym)
  cache_h_ubx : Option (List Sym × List Sym)
  cache_lagrangian : Option Sym
  cache_pdv : Option (List Sym)
deriving DecidableEq, Repr

/-- Embedding of `DifferentiableNlp.__init__` (`differentiable_nlp.py`
lines 24-48): stores the wrapped NLP and the two flags; nothing else —
in particular no symbolic variable is created — and all caches start
empty. -/
def DifferentiableNlp.init (nlp : Nlp) (simplify_x_bounds : Bool := true)
    (include_barrier_term : Bool := false) : DifferentiableNlp :=
  { nlp := nlp,
    remove_reduntant_x_bounds := simplify_x_bounds,
    include_barrier_term := include_barrier_term,
    cache_h_lbx := none,
    cache_h_ubx := none,
    cache_lagrangian := none,
    cache_pdv := none }

/-- Modelled from the spec (`cached_property` is not under `src/`):
accessing property `h_lbx` returns the memoized value when present and
otherwise computes it from the current state and stores it (§4.3:
"result is cached between such events (memoized, not fresh-computed per
access)"). -/
def DifferentiableNlp.accessHlbx (s : DifferentiableNlp) :
    (List Sym × List Sym) × DifferentiableNlp :=
  match s.cache_h_lbx with
  | some v => (v, s)
  | none =>
      let v := h_lbx s.nlp.data s.remove_reduntant_x_bounds
      (v, { s with cache_h_lbx := some v })

/-- Modelled from the spec (`cached_property` is not under `src/`):
accessing property `h_ubx`, memoized like `accessHlbx`. -/
def DifferentiableNlp.accessHubx (s : DifferentiableNlp) :
    (List Sym × List Sym) × DifferentiableNlp :=
  match s.cache_h_ubx with
  | some v => (v, s)
  | none =>
      let v := h_ubx s.nlp.data s.remove_reduntant_x_bounds
      (v, { s with cache_h_ubx := some v })

/-- Modelled from the spec (`cached_property` is not under `src/`):
accessing property `lagrangian`, memoized. -/
def DifferentiableNlp.accessLagrangian (s : DifferentiableNlp) :
    Sym × DifferentiableNlp :=
  match s.cache_lagrangian with
  | some v => (v, s)
  | none =>
      let v := lagrangian s.nlp.data s.remove_reduntant_x_bounds
      (v, { s with cache_lagrangian := some v })

/-- Modelled from the spec (`cached_property` is not under `src/`):
accessing property `primal_dual_variables`, memoized; when the
computation raises (as it always does, see
`c1_primal_dual_variables_raises_name_error`), the exception propagates
and nothing is cached. -/
def DifferentiableNlp.accessPdv (s : DifferentiableNlp) :
    Except PyErr (List Sym) × DifferentiableNlp :=
  match s.cache_pdv with
  | some v => (.ok v, s)
  | none =>
      match primal_dual_variables s.nlp.data s.remove_reduntant_x_bounds with
      | .error e => (.error e, s)
      | .ok v => (.ok v, { s with cache_pdv := some v })

/-- Embedding of the `variable` method (`differentiable_nlp.py` lines
107-109): the `cached_property_reset(h_lbx, h_ubx, lagrangian,
primal_dual_variables)` decorator clears exactly those four cache slots
(decorator semantics modelled from the spec, §4.1/§9, since
`casadi_nlp.util.cached_property_reset` is not under `src/`), then the
call is delegated unchanged to `self.nlp.variable` and its result
returned. -/
def DifferentiableNlp.variable (s : DifferentiableNlp) (d : VarDecl) :
    Except PyErr (List Sym × List Sym × List Sym) × DifferentiableNlp :=
  let r := Nlp.variable s.nlp d
  (r.1, { s with nlp := r.2,
                 cache_h_lbx := none,
                 cache_h_ubx := none,
                 cache_lagrangian := none,
                 cache_pdv := none })

/-- Embedding of the `constraint` method (`differentiable_nlp.py` lines
111-113): `cached_property_reset(lagrangian, primal_dual_variables)`
clears exactly those two cache slots, then the call is delegated
unchanged to `self.nlp.constraint`. -/
def DifferentiableNlp.constraint (s : DifferentiableNlp) (d : ConDecl) :
    Except PyErr (List Sym × List Sym) × DifferentiableNlp :=
  let r := Nlp.constraint s.nlp d
  (r.1, { s with nlp := r.2,
                 cache_lagrangian := none,
                 cache_pdv := none })

/-- Embedding of the `minimize` method (`differentiable_nlp.py` lines
115-117): `cached_property_reset(lagrangian)` clears exactly the
Lagrangian cache slot, then the call is delegated unchanged to
`self.nlp.minimize`. -/
def DifferentiableNlp.minimize (s : DifferentiableNlp) (f : Sym) :
    Except PyErr Unit × DifferentiableNlp :=
  let r := Nlp.minimize s.nlp f
  (r.1, { s with nlp := r.2,
                 cache_lagrangian := none })

/-- Modelled from the spec: changing this instance's simplify flag (§4.3:
the bound pairs "must be recomputed whenever a variable is declared or
this instance's simplify flag changes"; the mechanism lives in the
`Wrapper`/`casadi_nlp.util` machinery, which is not under `src/`).  When
the new value differs, the memoized bound pairs are invalidated. -/
def DifferentiableNlp.setSimplifyXBounds (s : DifferentiableNlp) (b : Bool) :
    DifferentiableNlp :=
  if b = s.remove_reduntant_x_bounds then
    { s with remove_reduntant_x_bounds := b }
  else
    { s with remove_reduntant_x_bounds := b,
             cache_h_lbx := none,
             cache_h_ubx := none }

/-- The stacked symbol block of the named variable in the Entity
Registry's name→Symbol mapping `nlp.variables` (declaration-order offsets
into the stacked vector `x`). -/
def Nlp.variablesAux : List VarDecl → ℕ → String → Option (List Sym)
  | [], _, _ => none
  | d :: rest, off, name =>
      if d.name = name then
        some ((List.range d.lb.length).map (fun k => Sym.xvar (off + k)))
      else
        Nlp.variablesAux rest (off + d.lb.length) name

/-- The registry mapping `nlp.variables[name]` (§6). -/
def Nlp.variables (nlp : Nlp) (name : String) : Option (List Sym) :=
  Nlp.variablesAux nlp.vars 0 name

/-- Modelled from the spec: the `Solution` view (§4.5;
`casadi_nlp.solutions` is not under `src/`).  It records the symbolic
problem definition and the full primal-dual plus parameter assignment of
one solve, and carries the eagerly built name→value mapping `vals`. -/
structure Solution where
  nlp : Nlp
  asn : Asn
  vals : List (String × List Bnd)

/-- `Solution.value(expression)`: substitution-based evaluation of an
arbitrary expression at the recorded assignment (§4.5). -/
def Solution.value (sol : Solution) (e : Sym) : Bnd :=
  e.eval sol.asn

/-- The entries of `Solution.vals`, built by walking the variable
registry in declaration order and evaluating each variable's stacked
symbol block through the same substitution path as `Solution.value`. -/
def mkValsAux (σ : Asn) : List VarDecl → ℕ → List (String × List Bnd)
  | [], _ => []
  | d :: rest, off =>
      (d.name,
        (List.range d.lb.length).map (fun k => Sym.eval σ (Sym.xvar (off + k))))
        :: mkValsAux σ rest (off + d.lb.length)

/-- Modelled from the spec: packaging a solve result into a `Solution`
(§4.5) — records the problem and assignment and fills `vals` from the
Entity Registry. -/
def mkSolution (nlp : Nlp) (σ : Asn) : Solution :=
  { nlp := nlp, asn := σ, vals := mkValsAux σ nlp.vars 0 }

/-- A small concrete registry state: a scalar variable `x` with bounds
`[0, 1]`, a 2-element parameter `p`, one equality and one inequality
constraint, and objective `x₀`. -/
def exNlp : Nlp :=
  { vars := [⟨"x", [Bnd.fin 0], [Bnd.fin 1]⟩],
    pars := [⟨"p", 2⟩],
    cons := [⟨"c1", true, [Sym.sub (Sym.xvar 0) (Sym.lit (Bnd.fin 1))]⟩,
             ⟨"c2", false, [Sym.xvar 0]⟩],
    f := Sym.xvar 0 }

/-- Concrete flat NLP data with one infinite bound on each side:
`lbx = [-inf, 0]`, `ubx = [1, +inf]`. -/
def exNlpData : NlpData :=
  { nx := 2,
    lbx := [Bnd.ninf, Bnd.fin 0],
    ubx := [Bnd.fin 1, Bnd.pinf],
    f := Sym.xvar 0,
    g := [Sym.sub (Sym.xvar 0) (Sym.lit (Bnd.fin 1))],
    h := [Sym.xvar 1] }

/-- Concrete flat NLP data with all bounds finite. -/
def exNlpDataFin : NlpData :=
  { nx := 2,
    lbx := [Bnd.fin 0, Bnd.fin (-1)],
    ubx := [Bnd.fin 1, Bnd.fin 2],
    f := Sym.xvar 0,
    g := [Sym.sub (Sym.xvar 0) (Sym.lit (Bnd.fin 1))],
    h := [Sym.xvar 1] }

/-- A concrete substitution. -/
def asn0 : Asn :=
  { x := fun _ => 2, lamG := fun _ => 3, lamH := fun _ => 5,
    lamLbx := fun _ => 7, lamUbx := fun _ => 11, p := fun _ => 13 }

/-- Two concrete variable declarations whose stacked bounds are exactly
`exNlpData`'s. -/
def exDecls : List VarDecl :=
  [⟨"x1", [Bnd.ninf], [Bnd.fin 1]⟩, ⟨"x2", [Bnd.fin 0], [Bnd.pinf]⟩]

/-- A concrete wrapper state whose bound-pair caches are populated with a
stale sentinel value (the empty pairs), distinct from what a fresh
computation over `exNlp` would produce. -/
def exState : DifferentiableNlp :=
  { nlp := exNlp,
    remove_reduntant_x_bounds := true,
    include_barrier_term := false,
    cache_h_lbx := some ([], []),
    cache_h_ubx := some ([], []),
    cache_lagrangian := none,
    cache_pdv := none }

/-- The two evaluation functions agree on an expression whose literals
are all finite. -/
theorem Sym.eval_eq_fin_evalQ (σ : Asn) :
    ∀ e : Sym, e.allFinite = true → e.eval σ = .fin (e.evalQ σ) := by
  intro e h
  induction e with
  | xvar i => rfl
  | lamG i => rfl
  | lamH i => rfl
  | lamLbx i => rfl
  | lamUbx i => rfl
  | par i => rfl
  | lit b => cases b with
    | ninf => exact absurd h (by simp [Sym.allFinite, Bnd.isFin])
    | fin q => rfl
    | pinf => exact absurd h (by simp [Sym.allFinite, Bnd.isFin])
  | add a b iha ihb =>
      simp only [Sym.allFinite, Bool.and_eq_true] at h
      simp only [Sym.eval, Sym.evalQ, iha h.1, ihb h.2, Bnd.add]
  | sub a b iha ihb =>
      simp only [Sym.allFinite, Bool.and_eq_true] at h
      simp only [Sym.eval, Sym.evalQ, iha h.1, ihb h.2, Bnd.sub]
  | mul a b iha ihb =>
      simp only [Sym.allFinite, Bool.and_eq_true] at h
      simp only [Sym.eval, Sym.evalQ, iha h.1, ihb h.2, Bnd.mul]

/-- Rational evaluation of a left fold of sums. -/
theorem evalQ_foldl_add (σ : Asn) :
    ∀ (l : List Sym) (acc : Sym),
      Sym.evalQ σ (l.foldl Sym.add acc) =
        Sym.evalQ σ acc + (l.map (Sym.evalQ σ)).sum := by
  intro l
  induction l with
  | nil => intro acc; simp
  | cons e rest ih =>
      intro acc
      rw [List.foldl_cons, ih, List.map_cons, List.sum_cons]
      simp only [Sym.evalQ]
      ring

/-- Rational evaluation distributes over the element products of a
zipped pair of vectors. -/
theorem map_evalQ_zipWith_mul (σ : Asn) :
    ∀ a b : List Sym,
      (List.zipWith Sym.mul a b).map (Sym.evalQ σ) =
        List.zipWith (fun p q => Sym.evalQ σ p * Sym.evalQ σ q) a b := by
  intro a
  induction a with
  | nil => intro b; simp
  | cons x xs ih =>
      intro b
      cases b with
      | nil => simp
      | cons y ys => simp [ih ys, Sym.evalQ]

/-- Rational evaluation of the embedded `cs.dot`. -/
theorem evalQ_dot (σ : Asn) (a b : List Sym) :
    Sym.evalQ σ (dot a b) =
      (List.zipWith (fun p q => Sym.evalQ σ p * Sym.evalQ σ q) a b).sum := by
  rw [dot, evalQ_foldl_add, map_evalQ_zipWith_mul]
  simp [Sym.evalQ, Bnd.toQ]

/-- A fold of sums of everywhere-finite expressions is finite. -/
theorem allFinite_foldl_add :
    ∀ (l : List Sym) (acc : Sym), (∀ e ∈ l, e.allFinite = true) →
      acc.allFinite = true → (l.foldl Sym.add acc).allFinite = true := by
  intro l
  induction l with
  | nil => intro acc _ h; simpa using h
  | cons x xs ih =>
      intro acc hl hacc
      rw [List.foldl_cons]
      refine ih _ (fun e he => hl e (List.mem_cons_of_mem _ he)) ?_
      have hx := hl x (List.mem_cons_self x xs)
      simp [Sym.allFinite, hacc, hx]

/-- Element products of everywhere-finite vectors are finite. -/
theorem allFinite_zipWith_mul :
    ∀ a b : List Sym, (∀ e ∈ a, e.allFinite = true) →
      (∀ e ∈ b, e.allFinite = true) →
      ∀ e ∈ List.zipWith Sym.mul a b, e.allFinite = true := by
  intro a
  induction a with
  | nil => intro b _ _ e he; simp at he
  | cons x xs ih =>
      intro b ha hb e he
      cases b with
      | nil => simp at he
      | cons y ys =>
          rw [List.zipWith_cons_cons] at he
          rcases List.mem_cons.1 he with rfl | hmem
          · have hx := ha x (List.mem_cons_self x xs)
            have hy := hb y (List.mem_cons_self y ys)
            simp [Sym.allFinite, hx, hy]
          · exact ih ys (fun e he => ha e (List.mem_cons_of_mem _ he))
              (fun e he => hb e (List.mem_cons_of_mem _ he)) e hmem

/-- The embedded `cs.dot` of everywhere-finite vectors is finite. -/
theorem allFinite_dot (a b : List Sym) (ha : ∀ e ∈ a, e.allFinite = true)
    (hb : ∀ e ∈ b, e.allFinite = true) : (dot a b).allFinite = true :=
  allFinite_foldl_add _ _ (allFinite_zipWith_mul a b ha hb) rfl

/-- `getD` of a list of finite bounds with a finite default is finite. -/
theorem isFin_getD (l : List Bnd) (hl : ∀ b ∈ l, b.isFin = true) (i : ℕ) :
    (l.getD i (Bnd.fin 0)).isFin = true := by
  rw [List.getD_eq_getElem?_getD]
  cases h : l[i]? with
  | none => rfl
  | some b => exact hl b (List.getElem?_mem h)

/-- C2: for a scalar objective `f`, `lagrangian()` evaluates under every
substitution to `f + lam_g·g + lam_h·h + lam_lbx·h_lbx + lam_ubx·h_ubx`,
where the constraint terms sum the stacked vectors against their
multipliers index by index and the bound terms range over exactly the
index sets retained by the bound reducer, with `h_lbx = lbx − x` and
`h_ubx = x − ubx` rows (finiteness hypotheses keep float arithmetic
exact). -/
theorem c2_lagrangian_formula (nlp : NlpData) (simplify : Bool) (σ : Asn)
    (hf : nlp.f.allFinite = true)
    (hg : ∀ e ∈ nlp.g, e.allFinite = true)
    (hh : ∀ e ∈ nlp.h, e.allFinite = true)
    (hlb : ∀ b ∈ nlp.lbx, b.isFin = true)
    (hub : ∀ b ∈ nlp.ubx, b.isFin = true) :
    Sym.eval σ (lagrangian nlp simplify) = Bnd.fin
      (Sym.evalQ σ nlp.f
        + (List.zipWith (fun i e => σ.lamG i * Sym.evalQ σ e)
            (List.range nlp.g.length) nlp.g).sum
        + (List.zipWith (fun i e => σ.lamH i * Sym.evalQ σ e)
            (List.range nlp.h.length) nlp.h).sum
        + ((lbxIdx nlp simplify).map
            (fun i => σ.lamLbx i * ((nlp.lbx.getD i (Bnd.fin 0)).toQ - σ.x i))).sum
        + ((ubxIdx nlp simplify).map
            (fun i => σ.lamUbx i * (σ.x i - (nlp.ubx.getD i (Bnd.fin 0)).toQ))).sum) := by
  have hgv : ∀ e ∈ nlp.lamGVec, e.allFinite = true := by
    intro e he
    obtain ⟨i, _, rfl⟩ := List.mem_map.1 he
    rfl
  have hhv : ∀ e ∈ nlp.lamHVec, e.allFinite = true := by
    intro e he
    obtain ⟨i, _, rfl⟩ := List.mem_map.1 he
    rfl
  have hlrow : ∀ e ∈ (h_lbx nlp simplify).1, e.allFinite = true := by
    intro e he
    obtain ⟨i, _, rfl⟩ := List.mem_map.1 he
    simpa [Sym.allFinite] using isFin_getD nlp.lbx hlb i
  have hurow : ∀ e ∈ (h_ubx nlp simplify).1, e.allFinite = true := by
    intro e he
    obtain ⟨i, _, rfl⟩ := List.mem_map.1 he
    simpa [Sym.allFinite] using isFin_getD nlp.ubx hub i
  have hlmul : ∀ e ∈ (h_lbx nlp simplify).2, e.allFinite = true := by
    intro e he
    obtain ⟨i, _, rfl⟩ := List.mem_map.1 he
    rfl
  have humul : ∀ e ∈ (h_ubx nlp simplify).2, e.allFinite = true := by
    intro e he
    obtain ⟨i, _, rfl⟩ := List.mem_map.1 he
    rfl
  have hfinL : (lagrangian nlp simplify).allFinite = true := by
    simp [lagrangian, Sym.allFinite, hf,
      allFinite_dot _ _ hgv hg, allFinite_dot _ _ hhv hh,
      allFinite_dot _ _ hlmul hlrow, allFinite_dot _ _ humul hurow]
  rw [Sym.eval_eq_fin_evalQ σ _ hfinL]
  congr 1
  show Sym.evalQ σ
      (Sym.add (Sym.add (Sym.add (Sym.add nlp.f (dot nlp.lamGVec nlp.g))
        (dot nlp.lamHVec nlp.h)) (dot (h_lbx nlp simplify).2 (h_lbx nlp simplify).1))
        (dot (h_ubx nlp simplify).2 (h_ubx nlp simplify).1)) = _
  simp only [Sym.evalQ, evalQ_dot, NlpData.lamGVec, NlpData.lamHVec,
    h_lbx, h_ubx, List.zipWith_map_left, List.zipWith_map_right,
    List.zipWith_same]

/-- C2 witness at `exNlpDataFin` (all bounds finite) and `asn0`. -/
theorem c2_lagrangian_formula_witness :
    Sym.eval asn0 (lagrangian exNlpDataFin true) = Bnd.fin
      (Sym.evalQ asn0 exNlpDataFin.f
        + (List.zipWith (fun i e => asn0.lamG i * Sym.evalQ asn0 e)
            (List.range exNlpDataFin.g.length) exNlpDataFin.g).sum
        + (List.zipWith (fun i e => asn0.lamH i * Sym.evalQ asn0 e)
            (List.range exNlpDataFin.h.length) exNlpDataFin.h).sum
        + ((lbxIdx exNlpDataFin true).map
            (fun i => asn0.lamLbx i *
              ((exNlpDataFin.lbx.getD i (Bnd.fin 0)).toQ - asn0.x i))).sum
        + ((ubxIdx exNlpDataFin true).map
            (fun i => asn0.lamUbx i *
              (asn0.x i - (exNlpDataFin.ubx.getD i (Bnd.fin 0)).toQ))).sum) :=
  c2_lagrangian_formula exNlpDataFin true asn0 (by decide) (by decide)
    (by decide) (by decide) (by decide)

/-- C3: in simplify mode, `h_lbx` retains exactly the rows with
`lbx[i] ≠ -inf` and `h_ubx` exactly those with `ubx[i] ≠ +inf`; each
retained row of `h_lbx` evaluates under substitution to `lbx[i] − x[i]`
(and of `h_ubx` to `x[i] − ubx[i]`), and each multiplier vector is
indexed by the same retained index list as its inequality vector. -/
theorem c3_simplify_mode_retention (nlp : NlpData) (σ : Asn) (i k : ℕ)
    (hlx : nlp.lbx.length = nlp.nx) (hux : nlp.ubx.length = nlp.nx) :
    (i ∈ lbxIdx nlp true ↔ i < nlp.nx ∧ nlp.lbx.getD i Bnd.ninf ≠ Bnd.ninf) ∧
    (i ∈ ubxIdx nlp true ↔ i < nlp.nx ∧ nlp.ubx.getD i Bnd.pinf ≠ Bnd.pinf) ∧
    ((h_lbx nlp true).1[k]?).map (Sym.eval σ) =
      ((lbxIdx nlp true)[k]?).map
        (fun j => Bnd.sub (nlp.lbx.getD j (Bnd.fin 0)) (Bnd.fin (σ.x j))) ∧
    ((h_ubx nlp true).1[k]?).map (Sym.eval σ) =
      ((ubxIdx nlp true)[k]?).map
        (fun j => Bnd.sub (Bnd.fin (σ.x j)) (nlp.ubx.getD j (Bnd.fin 0))) ∧
    (h_lbx nlp true).2 = (lbxIdx nlp true).map Sym.lamLbx ∧
    (h_ubx nlp true).2 = (ubxIdx nlp true).map Sym.lamUbx := by
  refine ⟨?_, ?_, ?_, ?_, rfl, rfl⟩
  · simp [lbxIdx, List.mem_filter, List.mem_range, decide_eq_true_iff, hlx]
  · simp [ubxIdx, List.mem_filter, List.mem_range, decide_eq_true_iff, hux]
  · cases h : (lbxIdx nlp true)[k]? with
    | none => simp [h_lbx, List.getElem?_map, h]
    | some j => simp [h_lbx, List.getElem?_map, h, Sym.eval]
  · cases h : (ubxIdx nlp true)[k]? with
    | none => simp [h_ubx, List.getElem?_map, h]
    | some j => simp [h_ubx, List.getElem?_map, h, Sym.eval]

/-- C3 witness at `exNlpData` (bounds `[-inf, 0]` and `[1, +inf]`),
`asn0`, row `i = 1`, position `k = 0`. -/
theorem c3_simplify_mode_retention_witness :
    (exNlpData.lbx.length = exNlpData.nx ∧
     exNlpData.ubx.length = exNlpData.nx) ∧
    ((1 ∈ lbxIdx exNlpData true ↔
        1 < exNlpData.nx ∧ exNlpData.lbx.getD 1 Bnd.ninf ≠ Bnd.ninf) ∧
     (1 ∈ ubxIdx exNlpData true ↔
        1 < exNlpData.nx ∧ exNlpData.ubx.getD 1 Bnd.pinf ≠ Bnd.pinf) ∧
     ((h_lbx exNlpData true).1[0]?).map (Sym.eval asn0) =
       ((lbxIdx exNlpData true)[0]?).map
         (fun j => Bnd.sub (exNlpData.lbx.getD j (Bnd.fin 0)) (Bnd.fin (asn0.x j))) ∧
     ((h_ubx exNlpData true).1[0]?).map (Sym.eval asn0) =
       ((ubxIdx exNlpData true)[0]?).map
         (fun j => Bnd.sub (Bnd.fin (asn0.x j)) (exNlpData.ubx.getD j (Bnd.fin 0))) ∧
     (h_lbx exNlpData true).2 = (lbxIdx exNlpData true).map Sym.lamLbx ∧
     (h_ubx exNlpData true).2 = (ubxIdx exNlpData true).map Sym.lamUbx) :=
  ⟨⟨rfl, rfl⟩, c3_simplify_mode_retention exNlpData asn0 1 0 rfl rfl⟩

/-- C4: in full mode, `h_lbx` and `h_ubx` include every row — their
length is the total element count contributed by the declared variables
— and every row evaluates under substitution to exactly `lb − x`
(respectively `x − ub`), in IEEE style even where the bound is
infinite. -/
theorem c4_full_mode_retention (nlp : NlpData) (decls : List VarDecl)
    (σ : Asn) (j : ℕ)
    (hlb : nlp.lbx = decls.flatMap VarDecl.lb)
    (hub : nlp.ubx = decls.flatMap VarDecl.ub)
    (hlens : ∀ d ∈ decls, d.ub.length = d.lb.length)
    (hnx : nlp.nx = nlp.lbx.length) :
    (h_lbx nlp false).1.length = (decls.map (fun d => d.lb.length)).sum ∧
    (h_ubx nlp false).1.length = (decls.map (fun d => d.lb.length)).sum ∧
    ((h_lbx nlp false).1[j]?).map (Sym.eval σ) =
      (nlp.lbx[j]?).map (fun lb => Bnd.sub lb (Bnd.fin (σ.x j))) ∧
    ((h_ubx nlp false).1[j]?).map (Sym.eval σ) =
      (nlp.ubx[j]?).map (fun ub => Bnd.sub (Bnd.fin (σ.x j)) ub) := by
  have hul : nlp.ubx.length = nlp.lbx.length := by
    rw [hlb, hub, List.length_flatMap, List.length_flatMap]
    congr 1
    exact List.map_congr_left fun d hd => by
      simp only [Function.comp_apply]
      exact hlens d hd
  refine ⟨?_, ?_, ?_, ?_⟩
  · simp only [h_lbx, lbxIdx, Bool.false_eq_true, if_false, List.length_map,
      List.length_range, hnx, hlb, List.length_flatMap]
    rfl
  · simp only [h_ubx, ubxIdx, Bool.false_eq_true, if_false, List.length_map,
      List.length_range, hnx, hlb, List.length_flatMap]
    rfl
  · by_cases hj : j < nlp.nx
    · have hj' : j < nlp.lbx.length := hnx ▸ hj
      simp [h_lbx, lbxIdx, List.getElem?_map, List.getElem?_range hj, Sym.eval,
        List.getD_eq_getElem?_getD, List.getElem?_eq_getElem hj']
    · have hj1 : (List.range nlp.nx)[j]? = none :=
        List.getElem?_eq_none (by simpa using not_lt.mp hj)
      have hj2 : nlp.lbx[j]? = none := List.getElem?_eq_none (by omega)
      simp [h_lbx, lbxIdx, List.getElem?_map, hj1, hj2]
  · by_cases hj : j < nlp.nx
    · have hj' : j < nlp.ubx.length := by omega
      simp [h_ubx, ubxIdx, List.getElem?_map, List.getElem?_range hj, Sym.eval,
        List.getD_eq_getElem?_getD, List.getElem?_eq_getElem hj']
    · have hj1 : (List.range nlp.nx)[j]? = none :=
        List.getElem?_eq_none (by simpa using not_lt.mp hj)
      have hj2 : nlp.ubx[j]? = none := List.getElem?_eq_none (by omega)
      simp [h_ubx, ubxIdx, List.getElem?_map, hj1, hj2]

/-- C4 witness at `exNlpData` built from the two declarations `exDecls`
(one row with `lb = -inf`, one with `ub = +inf`), `asn0`, row `j = 0`. -/
theorem c4_full_mode_retention_witness :
    (exNlpData.lbx = exDecls.flatMap VarDecl.lb ∧
     exNlpData.ubx = exDecls.flatMap VarDecl.ub ∧
     exNlpData.nx = exNlpData.lbx.length) ∧
    ((h_lbx exNlpData false).1.length =
        (exDecls.map (fun d => d.lb.length)).sum ∧
     (h_ubx exNlpData false).1.length =
        (exDecls.map (fun d => d.lb.length)).sum ∧
     ((h_lbx exNlpData false).1[0]?).map (Sym.eval asn0) =
       (exNlpData.lbx[0]?).map (fun lb => Bnd.sub lb (Bnd.fin (asn0.x 0))) ∧
     ((h_ubx exNlpData false).1[0]?).map (Sym.eval asn0) =
       (exNlpData.ubx[0]?).map (fun ub => Bnd.sub (Bnd.fin (asn0.x 0)) ub)) :=
  ⟨⟨rfl, rfl, rfl⟩,
   c4_full_mode_retention exNlpData exDecls asn0 0 rfl rfl (by decide) rfl⟩

/-- C1: for every wrapped NLP, accessing `primal_dual_variables` raises
`NameError` — the loop at line 89 of `differentiable_nlp.py` iterates
over the free name `_PRIMAL_DUAL_ORDER`, while the module defines only
`PRIMAL_DUAL_ORDER` (line 8), so the name lookup fails before any block
is concatenated; no vertical concatenation is ever returned. -/
theorem c1_primal_dual_variables_raises_name_error :
    moduleLookup "PRIMAL_DUAL_ORDER" = some ["x", "g", "h", "h_lbx", "h_ubx"] ∧
    ∀ (nlp : NlpData) (simplify : Bool),
      primal_dual_variables nlp simplify =
        Except.error (PyErr.nameError "_PRIMAL_DUAL_ORDER") := by
  refine ⟨rfl, fun nlp simplify => ?_⟩
  rfl

/-- C5 counterexample: at a concrete NLP, constructing the wrapper with
`include_barrier_term = true` yields exactly the same instance state as
with `false` apart from the stored flag — in particular the Lagrangian
returned by `lagrangian()` is identical and no extra Symbol appears
anywhere, contradicting the claim that a barrier Symbol is introduced
and added as a weighted term. -/
theorem c5_barrier_counterexample :
    (DifferentiableNlp.accessLagrangian (DifferentiableNlp.init exNlp true true)).1 =
      (DifferentiableNlp.accessLagrangian (DifferentiableNlp.init exNlp true false)).1 ∧
    DifferentiableNlp.init exNlp true true =
      { DifferentiableNlp.init exNlp true false with include_barrier_term := true } := by
  exact ⟨rfl, rfl⟩

/-- C5 (amended): `include_barrier_term` is merely stored on the wrapper
by `__init__`; no extra scalar Symbol is introduced with either value,
and the Lagrangian returned by `lagrangian()` does not depend on the
flag (it equals the plain Lagrangian of the wrapped NLP). -/
theorem c5_barrier_flag_only_stored (nlp : Nlp) (simplify b : Bool) :
    (DifferentiableNlp.init nlp simplify b).include_barrier_term = b ∧
    (DifferentiableNlp.accessLagrangian (DifferentiableNlp.init nlp simplify b)).1 =
      lagrangian nlp.data simplify := by
  exact ⟨rfl, rfl⟩

/-- C6: cache invalidation is exactly fine-grained — `variable` clears
the cached `h_lbx`, `h_ubx`, Lagrangian and primal-dual vector;
`constraint` clears only the cached Lagrangian and primal-dual vector,
leaving the cached bound pairs untouched; `minimize` clears only the
cached Lagrangian, leaving the cached bound pairs and primal-dual vector
untouched. -/
theorem c6_cache_invalidation_fine_grained (s : DifferentiableNlp)
    (d : VarDecl) (c : ConDecl) (f : Sym) :
    ((s.variable d).2.cache_h_lbx = none ∧
     (s.variable d).2.cache_h_ubx = none ∧
     (s.variable d).2.cache_lagrangian = none ∧
     (s.variable d).2.cache_pdv = none) ∧
    ((s.constraint c).2.cache_lagrangian = none ∧
     (s.constraint c).2.cache_pdv = none ∧
     (s.constraint c).2.cache_h_lbx = s.cache_h_lbx ∧
     (s.constraint c).2.cache_h_ubx = s.cache_h_ubx) ∧
    ((s.minimize f).2.cache_lagrangian = none ∧
     (s.minimize f).2.cache_h_lbx = s.cache_h_lbx ∧
     (s.minimize f).2.cache_h_ubx = s.cache_h_ubx ∧
     (s.minimize f).2.cache_pdv = s.cache_pdv) := by
  exact ⟨⟨rfl, rfl, rfl, rfl⟩, ⟨rfl, rfl, rfl, rfl⟩, ⟨rfl, rfl, rfl, rfl⟩⟩

/-- C7: the bound pairs are recomputed whenever a variable is declared or
the simplify flag changes, and between such events repeated accesses
return the memoized cached value (even a stale one) rather than
recomputing: a populated cache is returned as-is with the state
untouched; declaring a variable or changing the flag empties both bound
caches; and the next access then computes from the current state (and,
after a declaration, stores the result back into the cache). -/
theorem c7_bound_pairs_memoized (s : DifferentiableNlp)
    (v w : List Sym × List Sym) (d : VarDecl) (b : Bool)
    (hv : s.cache_h_lbx = some v) (hw : s.cache_h_ubx = some w)
    (hb : b ≠ s.remove_reduntant_x_bounds) :
    s.accessHlbx = (v, s) ∧
    s.accessHubx = (w, s) ∧
    (s.variable d).2.cache_h_lbx = none ∧
    (s.variable d).2.cache_h_ubx = none ∧
    ((s.variable d).2.accessHlbx).1 =
      h_lbx (s.variable d).2.nlp.data s.remove_reduntant_x_bounds ∧
    ((s.variable d).2.accessHlbx).2.cache_h_lbx =
      some (((s.variable d).2.accessHlbx).1) ∧
    ((s.variable d).2.accessHubx).1 =
      h_ubx (s.variable d).2.nlp.data s.remove_reduntant_x_bounds ∧
    (s.setSimplifyXBounds b).cache_h_lbx = none ∧
    (s.setSimplifyXBounds b).cache_h_ubx = none ∧
    ((s.setSimplifyXBounds b).accessHlbx).1 = h_lbx s.nlp.data b ∧
    ((s.setSimplifyXBounds b).accessHubx).1 = h_ubx s.nlp.data b := by
  refine ⟨?_, ?_, rfl, rfl, rfl, rfl, rfl, ?_, ?_, ?_, ?_⟩
  · simp [DifferentiableNlp.accessHlbx, hv]
  · simp [DifferentiableNlp.accessHubx, hw]
  · simp [DifferentiableNlp.setSimplifyXBounds, if_neg hb]
  · simp [DifferentiableNlp.setSimplifyXBounds, if_neg hb]
  · simp [DifferentiableNlp.setSimplifyXBounds, if_neg hb,
      DifferentiableNlp.accessHlbx]
  · simp [DifferentiableNlp.setSimplifyXBounds, if_neg hb,
      DifferentiableNlp.accessHubx]

/-- C7 witness at `exState` (caches populated with a stale sentinel),
declaring a fresh variable `y` and flipping the simplify flag to
`false`. -/
theorem c7_bound_pairs_memoized_witness :
    (exState.cache_h_lbx = some ([], []) ∧
     exState.cache_h_ubx = some ([], []) ∧
     false ≠ exState.remove_reduntant_x_bounds) ∧
    (exState.accessHlbx = (([], []), exState) ∧
     exState.accessHubx = (([], []), exState) ∧
     (exState.variable ⟨"y", [Bnd.fin 0], [Bnd.fin 1]⟩).2.cache_h_lbx = none ∧
     (exState.variable ⟨"y", [Bnd.fin 0], [Bnd.fin 1]⟩).2.cache_h_ubx = none ∧
     ((exState.variable ⟨"y", [Bnd.fin 0], [Bnd.fin 1]⟩).2.accessHlbx).1 =
       h_lbx (exState.variable ⟨"y", [Bnd.fin 0], [Bnd.fin 1]⟩).2.nlp.data
         exState.remove_reduntant_x_bounds ∧
     ((exState.variable ⟨"y", [Bnd.fin 0], [Bnd.fin 1]⟩).2.accessHlbx).2.cache_h_lbx =
       some (((exState.variable ⟨"y", [Bnd.fin 0], [Bnd.fin 1]⟩).2.accessHlbx).1) ∧
     ((exState.variable ⟨"y", [Bnd.fin 0], [Bnd.fin 1]⟩).2.accessHubx).1 =
       h_ubx (exState.variable ⟨"y", [Bnd.fin 0], [Bnd.fin 1]⟩).2.nlp.data
         exState.remove_reduntant_x_bounds ∧
     (exState.setSimplifyXBounds false).cache_h_lbx = none ∧
     (exState.setSimplifyXBounds false).cache_h_ubx = none ∧
     ((exState.setSimplifyXBounds false).accessHlbx).1 = h_lbx exState.nlp.data false ∧
     ((exState.setSimplifyXBounds false).accessHubx).1 = h_ubx exState.nlp.data false) :=
  ⟨⟨rfl, rfl, by decide⟩,
   c7_bound_pairs_memoized exState ([], []) ([], [])
     ⟨"y", [Bnd.fin 0], [Bnd.fin 1]⟩ false rfl rfl (by decide)⟩

/-- C8: for each kind, declaring an entity whose name already exists for
that kind fails with a naming-conflict `ValueError`, registers nothing
(the registry state is returned unchanged), and leaves the kind's
stacked-vector length unchanged. -/
theorem c8_duplicate_name_rejected (nlp : Nlp)
    (d : VarDecl) (p : ParDecl) (c : ConDecl)
    (hd : d.name ∈ nlp.vars.map VarDecl.name)
    (hp : p.name ∈ nlp.pars.map ParDecl.name)
    (hc : c.name ∈ nlp.cons.map ConDecl.name) :
    Nlp.variable nlp d = (.error .valueError, nlp) ∧
    (Nlp.variable nlp d).2.nx = nlp.nx ∧
    Nlp.parameter nlp p = (.error .valueError, nlp) ∧
    (Nlp.parameter nlp p).2.npar = nlp.npar ∧
    Nlp.constraint nlp c = (.error .valueError, nlp) ∧
    (Nlp.constraint nlp c).2.ncon = nlp.ncon := by
  obtain ⟨v, hvmem, hvname⟩ := List.mem_map.1 hd
  obtain ⟨q, hqmem, hqname⟩ := List.mem_map.1 hp
  obtain ⟨e, hemem, hename⟩ := List.mem_map.1 hc
  have h1 : (nlp.vars.any fun x => x.name = d.name) = true :=
    List.any_eq_true.2 ⟨v, hvmem, decide_eq_true hvname⟩
  have h2 : (nlp.pars.any fun x => x.name = p.name) = true :=
    List.any_eq_true.2 ⟨q, hqmem, decide_eq_true hqname⟩
  have h3 : (nlp.cons.any fun x => x.name = c.name) = true :=
    List.any_eq_true.2 ⟨e, hemem, decide_eq_true hename⟩
  refine ⟨?_, ?_, ?_, ?_, ?_, ?_⟩ <;>
    simp [Nlp.variable, Nlp.parameter, Nlp.constraint, h1, h2, h3]

/-- C8 witness at `exNlp`, re-declaring the existing names `x`, `p` and
`c1`. -/
theorem c8_duplicate_name_rejected_witness :
    (("x" : String) ∈ exNlp.vars.map VarDecl.name ∧
     ("p" : String) ∈ exNlp.pars.map ParDecl.name ∧
     ("c1" : String) ∈ exNlp.cons.map ConDecl.name) ∧
    (Nlp.variable exNlp ⟨"x", [Bnd.fin 2], [Bnd.fin 3]⟩ =
        (.error .valueError, exNlp) ∧
     (Nlp.variable exNlp ⟨"x", [Bnd.fin 2], [Bnd.fin 3]⟩).2.nx = exNlp.nx ∧
     Nlp.parameter exNlp ⟨"p", 1⟩ = (.error .valueError, exNlp) ∧
     (Nlp.parameter exNlp ⟨"p", 1⟩).2.npar = exNlp.npar ∧
     Nlp.constraint exNlp ⟨"c1", true, [Sym.xvar 0]⟩ =
        (.error .valueError, exNlp) ∧
     (Nlp.constraint exNlp ⟨"c1", true, [Sym.xvar 0]⟩).2.ncon = exNlp.ncon) :=
  ⟨⟨by decide, by decide, by decide⟩,
   c8_duplicate_name_rejected exNlp ⟨"x", [Bnd.fin 2], [Bnd.fin 3]⟩ ⟨"p", 1⟩
     ⟨"c1", true, [Sym.xvar 0]⟩ (by decide) (by decide) (by decide)⟩

/-- Looking a name up in the eagerly built `vals` association list agrees
with evaluating the registry's stacked symbol block for that name, for
any starting offset. -/
theorem lookup_mkValsAux (σ : Asn) (name : String) (syms : List Sym) :
    ∀ (vs : List VarDecl) (off : ℕ),
      Nlp.variablesAux vs off name = some syms →
      List.lookup name (mkValsAux σ vs off) = some (syms.map (Sym.eval σ)) := by
  intro vs
  induction vs with
  | nil => intro off h; simp [Nlp.variablesAux] at h
  | cons d rest ih =>
      intro off h
      rw [Nlp.variablesAux] at h
      by_cases hn : d.name = name
      · rw [if_pos hn] at h
        obtain rfl := Option.some.inj h
        rw [mkValsAux, List.lookup, show (name == d.name) = true from
          beq_iff_eq.2 hn.symm]
        simp [List.map_map]
      · rw [if_neg hn] at h
        rw [mkValsAux, List.lookup, show (name == d.name) = false from
          beq_eq_false_iff_ne.2 fun hx => hn hx.symm]
        exact ih (off + d.lb.length) h

/-- C9: for every declared variable name, `Solution.vals[name]` agrees
with `Solution.value` applied to that variable's registry symbol block —
both paths evaluate through the same recorded substitution and yield the
same numeric values. -/
theorem c9_vals_agrees_with_value (nlp : Nlp) (σ : Asn)
    (name : String) (syms : List Sym)
    (h : Nlp.variables nlp name = some syms) :
    List.lookup name (mkSolution nlp σ).vals =
      some (syms.map (mkSolution nlp σ).value) :=
  lookup_mkValsAux σ name syms nlp.vars 0 h

/-- C9 witness at `exNlp` and `asn0` for the declared variable `x`. -/
theorem c9_vals_agrees_with_value_witness :
    Nlp.variables exNlp "x" = some [Sym.xvar 0] ∧
    List.lookup "x" (mkSolution exNlp asn0).vals =
      some ([Sym.xvar 0].map (mkSolution exNlp asn0).value) :=
  ⟨rfl, c9_vals_agrees_with_value exNlp asn0 "x" [Sym.xvar 0] rfl⟩

/-- C10: the wrapper's `variable`, `constraint` and `minimize` delegate
to the wrapped NLP's method of the same name with the arguments
unchanged — the returned value (symbols or raised error) is exactly the
underlying method's result and the wrapped NLP ends in exactly the state
the underlying method produces; only the caches differ. -/
theorem c10_wrapper_delegates (s : DifferentiableNlp)
    (d : VarDecl) (c : ConDecl) (f : Sym) :
    ((s.variable d).1 = (Nlp.variable s.nlp d).1 ∧
     (s.variable d).2.nlp = (Nlp.variable s.nlp d).2) ∧
    ((s.constraint c).1 = (Nlp.constraint s.nlp c).1 ∧
     (s.constraint c).2.nlp = (Nlp.constraint s.nlp c).2) ∧
    ((s.minimize f).1 = (Nlp.minimize s.nlp f).1 ∧
     (s.minimize f).2.nlp = (Nlp.minimize s.nlp f).2) := by
  exact ⟨⟨rfl, rfl⟩, ⟨rfl, rfl⟩, ⟨rfl, rfl⟩⟩

end CsNlp
